import Mathlib

/-!
Shallow embedding of `src/brotli.js` (the `BrotliProcessor` class) and proofs
about it.

Modelling conventions:
* byte sequences (`Uint8Array`) are `List Nat`;
* the external `brotli` package's `compress`/`decompress` pair is an abstract
  `Codec` record whose operations may fail (`Except String`), mirroring that a
  JS call can throw with a message;
* wall-clock time (`performance.now()` differences) is an explicit
  `elapsedMs : ℚ` argument to each operation;
* the progress callback is modelled by a `hasCallback` flag together with the
  list of `ProgressEvent`s the callback would have received, in order;
* codec invocations are additionally recorded in a ghost trace
  (`List EncodeCall`) so that theorems can speak about how often and on what
  data `brotliCompress` was invoked. The trace records calls in order,
  including a call whose encode fails;
* the `for (let i = 0; i < data.length; i += chunkSize)` loop of
  `streamCompress` terminates only because `chunkSize ≥ 1`; the embedding
  makes that hypothesis an explicit argument (`hcs`). `compressWithProgress`
  reaches the loop only under the guard `chunkSize && data.length > chunkSize`
  (chunkSize truthy, i.e. nonzero), which supplies the proof.
-/

namespace BrotliJS

/-- Byte sequences (JS `Uint8Array`) are modelled as lists of naturals. -/
abbrev Bytes := List Nat

/-- The option object `{mode, quality, lgwin}` passed to `brotliCompress`
(src/brotli.js lines 23-27 and 44-48). -/
structure EncodeParams where
  mode : Int
  quality : Int
  lgwin : Int
  deriving DecidableEq, Repr

/-- The external primitive codec (the `brotli` npm package): a fallible
`encode`/`decode` pair, `src/brotli.js` line 1. -/
structure Codec where
  encode : Bytes → EncodeParams → Except String Bytes
  decode : Bytes → Except String Bytes

/-- The `options` argument of `compressWithProgress` with the defaults of
src/brotli.js line 14. -/
structure CompressionOptions where
  quality : Int := 6
  mode : Int := 0
  chunkSize : Nat := 1024 * 1024
  lgwin : Int := 22
  deriving DecidableEq, Repr

/-- The `performanceMetrics` record of the processor
(src/brotli.js lines 5-10). -/
structure PerformanceMetrics where
  compressionTime : ℚ
  decompressionTime : ℚ
  originalSize : Nat
  compressedSize : Nat
  deriving DecidableEq, Repr

/-- Constructor state: all metrics fields start at 0 (src/brotli.js lines 4-11). -/
def initialMetrics : PerformanceMetrics :=
  { compressionTime := 0, decompressionTime := 0, originalSize := 0, compressedSize := 0 }

/-- One invocation of the progress callback: `progressCallback(progress,
compressedChunk.length)` (src/brotli.js lines 51-54). -/
structure ProgressEvent where
  fraction : ℚ
  lastChunkCompressedSize : Nat
  deriving DecidableEq, Repr

/-- Ghost record of one `brotliCompress` invocation: the bytes and the
parameter object it received. -/
structure EncodeCall where
  input : Bytes
  params : EncodeParams
  deriving DecidableEq, Repr

/-- Result of running the `streamCompress` chunk loop: the per-chunk outputs
(or the error of the first failing encode), the progress events delivered,
and the ghost trace of encode calls. -/
structure StreamRun where
  outcome : Except String (List Bytes)
  events : List ProgressEvent
  calls : List EncodeCall
  deriving Repr

/-- The loop of `streamCompress` (src/brotli.js lines 42-56):
`for (let i = 0; i < data.length; i += chunkSize)` slices
`data.slice(i, i + chunkSize)`, encodes it, pushes the output, and reports
`Math.min((i + chunkSize) / data.length, 1)` together with the compressed
chunk length to the callback when one was supplied. An encode failure
propagates (the JS exception aborts the loop). -/
def streamLoop (codec : Codec) (data : Bytes) (params : EncodeParams)
    (chunkSize : Nat) (hcs : 0 < chunkSize) (hasCallback : Bool) (i : Nat) :
    StreamRun :=
  if _h : i < data.length then
    let chunk := (data.drop i).take chunkSize
    match codec.encode chunk params with
    | Except.error e => ⟨Except.error e, [], [⟨chunk, params⟩]⟩
    | Except.ok compressedChunk =>
      let evs : List ProgressEvent :=
        if hasCallback then
          [⟨min (((i + chunkSize : Nat) : ℚ) / (data.length : ℚ)) 1,
            compressedChunk.length⟩]
        else []
      let rest := streamLoop codec data params chunkSize hcs hasCallback (i + chunkSize)
      ⟨rest.outcome.map (compressedChunk :: ·), evs ++ rest.events,
        ⟨chunk, params⟩ :: rest.calls⟩
  else ⟨Except.ok [], [], []⟩
  termination_by data.length - i
  decreasing_by omega

/-- Result of `streamCompress`: the concatenated buffer (or the first encode
failure), the progress events, and the encode-call trace. -/
structure StreamResult where
  outcome : Except String Bytes
  events : List ProgressEvent
  calls : List EncodeCall
  deriving Repr

/-- `streamCompress` (src/brotli.js lines 40-66): run the chunk loop from
`i = 0` and concatenate the per-chunk outputs into one buffer
(lines 57-65: total length, then `result.set(chunk, offset)` in order). -/
def streamCompress (codec : Codec) (data : Bytes) (params : EncodeParams)
    (chunkSize : Nat) (hcs : 0 < chunkSize) (hasCallback : Bool) : StreamResult :=
  let run := streamLoop codec data params chunkSize hcs hasCallback 0
  ⟨run.outcome.map List.flatten, run.events, run.calls⟩

/-- The observable outcome of one `compressWithProgress` call: its return
value or thrown error, the processor metrics after the call, the progress
events delivered, and the ghost encode-call trace. -/
structure CompressOutcome where
  result : Except String Bytes
  metrics : PerformanceMetrics
  events : List ProgressEvent
  calls : List EncodeCall
  deriving Repr

/-- `compressWithProgress` (src/brotli.js lines 13-38): destructure the
options with their defaults; if `chunkSize && data.length > chunkSize` take
the chunked path, else call `brotliCompress` once on the whole buffer; on
success overwrite `compressionTime` (modelled by the `elapsedMs` argument),
`originalSize` and `compressedSize`; on any failure rethrow as
`Compression failed: ...` and leave the metrics untouched. -/
def compressWithProgress (codec : Codec) (m : PerformanceMetrics) (data : Bytes)
    (opts : CompressionOptions) (hasCallback : Bool) (elapsedMs : ℚ) :
    CompressOutcome :=
  let params : EncodeParams := ⟨opts.mode, opts.quality, opts.lgwin⟩
  if h : opts.chunkSize ≠ 0 ∧ opts.chunkSize < data.length then
    let run := streamCompress codec data params opts.chunkSize
      (Nat.pos_of_ne_zero h.1) hasCallback
    match run.outcome with
    | Except.error e =>
      ⟨Except.error ("Compression failed: " ++ e), m, run.events, run.calls⟩
    | Except.ok compressedData =>
      ⟨Except.ok compressedData,
        { m with compressionTime := elapsedMs, originalSize := data.length,
                 compressedSize := compressedData.length },
        run.events, run.calls⟩
  else
    match codec.encode data params with
    | Except.error e =>
      ⟨Except.error ("Compression failed: " ++ e), m, [], [⟨data, params⟩]⟩
    | Except.ok compressedData =>
      ⟨Except.ok compressedData,
        { m with compressionTime := elapsedMs, originalSize := data.length,
                 compressedSize := compressedData.length },
        [], [⟨data, params⟩]⟩

/-- `decompress` (src/brotli.js lines 68-77): one `brotliDecompress` call on
the whole buffer; on success overwrite `decompressionTime`; on failure
rethrow as `Decompression failed: ...` with metrics untouched. -/
def decompress (codec : Codec) (m : PerformanceMetrics) (compressedData : Bytes)
    (elapsedMs : ℚ) : Except String Bytes × PerformanceMetrics :=
  match codec.decode compressedData with
  | Except.error e => (Except.error ("Decompression failed: " ++ e), m)
  | Except.ok decompressedData =>
    (Except.ok decompressedData, { m with decompressionTime := elapsedMs })

/-- The object returned by `getMetrics` (src/brotli.js lines 79-85): the
metrics fields plus the derived ratio. -/
structure MetricsSnapshot where
  compressionTime : ℚ
  decompressionTime : ℚ
  originalSize : Nat
  compressedSize : Nat
  compressionRatio : ℚ
  deriving DecidableEq, Repr

/-- `getMetrics` (src/brotli.js lines 79-85): spread of `performanceMetrics`
plus `compressionRatio = originalSize / (compressedSize || 1)`; the JS `||`
turns a zero (falsy) `compressedSize` into `1`. -/
def getMetrics (m : PerformanceMetrics) : MetricsSnapshot :=
  { compressionTime := m.compressionTime
    decompressionTime := m.decompressionTime
    originalSize := m.originalSize
    compressedSize := m.compressedSize
    compressionRatio :=
      (m.originalSize : ℚ) /
        ((if m.compressedSize = 0 then 1 else m.compressedSize : Nat) : ℚ) }

/-- The half-open byte ranges the `streamCompress` loop slices
(src/brotli.js lines 42-43): starts `0, chunkSize, 2*chunkSize, ...` while
below `len`; `slice(i, i + chunkSize)` clamps the end at `len`. This is the
spec's Chunk Planner. -/
def chunkRanges (len chunkSize : Nat) (hcs : 0 < chunkSize) (i : Nat) :
    List (Nat × Nat) :=
  if _h : i < len then
    (i, min (i + chunkSize) len) :: chunkRanges len chunkSize hcs (i + chunkSize)
  else []
  termination_by len - i
  decreasing_by omega

/-- A concrete primitive codec whose encode is the identity on the input
bytes, so its decode is the inverse of its encode; used to instantiate
theorems at concrete inputs. -/
def idCodec : Codec where
  encode := fun b _ => Except.ok b
  decode := fun b => Except.ok b

/-- A concrete primitive codec whose encode always fails with message
"boom"; used to instantiate failure-path theorems at concrete inputs. -/
def failCodec : Codec where
  encode := fun _ _ => Except.error "boom"
  decode := fun _ => Except.error "boom"

theorem chunkRanges_eq_nil {len cs : Nat} (hcs : 0 < cs) {i : Nat} (h : len ≤ i) :
    chunkRanges len cs hcs i = [] := by
  rw [chunkRanges]
  simp [Nat.not_lt.mpr h]

theorem chunkRanges_eq_cons {len cs : Nat} (hcs : 0 < cs) {i : Nat} (h : i < len) :
    chunkRanges len cs hcs i
      = (i, min (i + cs) len) :: chunkRanges len cs hcs (i + cs) := by
  rw [chunkRanges]
  simp [h]

theorem chunkRanges_ne_nil_iff {len cs : Nat} (hcs : 0 < cs) {i : Nat} :
    chunkRanges len cs hcs i ≠ [] ↔ i < len := by
  constructor
  · intro h
    by_contra hlt
    exact h (chunkRanges_eq_nil hcs (Nat.not_lt.mp hlt))
  · intro h
    rw [chunkRanges_eq_cons hcs h]
    simp

theorem chunkRanges_length (len cs : Nat) (hcs : 0 < cs) (i : Nat) :
    (chunkRanges len cs hcs i).length = (len - i + cs - 1) / cs := by
  by_cases h : i < len
  · rw [chunkRanges_eq_cons hcs h]
    have ih := chunkRanges_length len cs hcs (i + cs)
    simp only [List.length_cons, ih]
    rcases le_or_lt (i + cs) len with h2 | h2
    · have e1 : len - (i + cs) + cs - 1 = len - i - 1 := by omega
      have e2 : len - i + cs - 1 = (len - i - 1) + cs := by omega
      rw [e1, e2, Nat.add_div_right _ hcs]
    · have e1 : len - (i + cs) + cs - 1 = cs - 1 := by omega
      have e2 : len - i + cs - 1 = (len - i - 1) + cs := by omega
      rw [e1, e2, Nat.add_div_right _ hcs, Nat.div_eq_of_lt (by omega),
        Nat.div_eq_of_lt (by omega)]
  · rw [chunkRanges_eq_nil hcs (Nat.not_lt.mp h)]
    have e1 : len - i = 0 := by omega
    rw [e1]
    simp only [List.length_nil]
    symm
    exact Nat.div_eq_of_lt (by omega)
  termination_by len - i
  decreasing_by omega

theorem chunkRanges_flatten (len cs : Nat) (hcs : 0 < cs) (i : Nat) :
    ((chunkRanges len cs hcs i).map fun r => List.range' r.1 (r.2 - r.1)).flatten
      = List.range' i (len - i) := by
  by_cases h : i < len
  · rw [chunkRanges_eq_cons hcs h]
    have ih := chunkRanges_flatten len cs hcs (i + cs)
    simp only [List.map_cons, List.flatten_cons, ih]
    rcases le_or_lt (i + cs) len with h2 | h2
    · have e1 : min (i + cs) len - i = cs := by omega
      rw [e1]
      have := List.range'_append_1 i cs (len - (i + cs))
      rw [this]
      congr 1
      omega
    · have e1 : min (i + cs) len - i = len - i := by omega
      have e2 : len - (i + cs) = 0 := by omega
      rw [e1, e2]
      simp
  · rw [chunkRanges_eq_nil hcs (Nat.not_lt.mp h)]
    simp [Nat.sub_eq_zero_of_le (Nat.not_lt.mp h)]
  termination_by len - i
  decreasing_by omega

theorem chunkRanges_dropLast (len cs : Nat) (hcs : 0 < cs) (i : Nat) :
    ∀ r ∈ (chunkRanges len cs hcs i).dropLast, r.2 - r.1 = cs := by
  by_cases h : i < len
  · rw [chunkRanges_eq_cons hcs h]
    by_cases h2 : i + cs < len
    · have ht : chunkRanges len cs hcs (i + cs) ≠ [] :=
        (chunkRanges_ne_nil_iff hcs).mpr h2
      rw [List.dropLast_cons_of_ne_nil ht]
      intro r hr
      rcases List.mem_cons.mp hr with rfl | hr
      · simp
        omega
      · exact chunkRanges_dropLast len cs hcs (i + cs) r hr
    · have ht : chunkRanges len cs hcs (i + cs) = [] :=
        chunkRanges_eq_nil hcs (Nat.not_lt.mp h2)
      rw [ht]
      simp
  · rw [chunkRanges_eq_nil hcs (Nat.not_lt.mp h)]
    simp
  termination_by len - i
  decreasing_by omega

theorem chunkRanges_getLast? (len cs : Nat) (hcs : 0 < cs) (i : Nat)
    (h : i < len) :
    ∃ j, (chunkRanges len cs hcs i).getLast? = some (j, len) ∧ j < len ∧
      len ≤ j + cs := by
  by_cases h2 : i + cs < len
  · obtain ⟨j, hj, hj1, hj2⟩ := chunkRanges_getLast? len cs hcs (i + cs) h2
    refine ⟨j, ?_, hj1, hj2⟩
    rw [chunkRanges_eq_cons hcs h]
    rw [chunkRanges_eq_cons hcs h2] at hj ⊢
    rw [List.getLast?_cons_cons]
    exact hj
  · refine ⟨i, ?_, h, Nat.not_lt.mp h2⟩
    rw [chunkRanges_eq_cons hcs h,
      chunkRanges_eq_nil hcs (Nat.not_lt.mp h2)]
    simp
    omega
  termination_by len - i
  decreasing_by omega

theorem chunkRanges_get (len cs : Nat) (hcs : 0 < cs) (i j : Nat)
    (hj : j < (chunkRanges len cs hcs i).length) :
    (chunkRanges len cs hcs i).get ⟨j, hj⟩
      = (i + j * cs, min (i + j * cs + cs) len) := by
  induction j generalizing i with
  | zero =>
    have h : i < len := by
      by_contra hc
      rw [chunkRanges_eq_nil hcs (Nat.not_lt.mp hc)] at hj
      simp at hj
    rw [List.get_of_eq (chunkRanges_eq_cons hcs h)]
    simp
  | succ j ih =>
    have h : i < len := by
      by_contra hc
      rw [chunkRanges_eq_nil hcs (Nat.not_lt.mp hc)] at hj
      simp at hj
    have hj' : j < (chunkRanges len cs hcs (i + cs)).length := by
      have := hj
      rw [chunkRanges_eq_cons hcs h] at this
      simpa using this
    rw [List.get_of_eq (chunkRanges_eq_cons hcs h)]
    have e0 := ih (i + cs) hj'
    simp only [List.get_cons_succ]
    have e1 : i + cs + j * cs = i + (j + 1) * cs := by ring
    rw [e0, e1]

theorem streamLoop_of_encode_ok (codec : Codec) (f : Bytes → Bytes)
    (params : EncodeParams) (data : Bytes) (cs : Nat) (hcs : 0 < cs) (cb : Bool)
    (henc : ∀ b, codec.encode b params = Except.ok (f b)) (i : Nat) :
    streamLoop codec data params cs hcs cb i =
      ⟨Except.ok ((chunkRanges data.length cs hcs i).map
          fun r => f ((data.drop r.1).take cs)),
        if cb then
          (chunkRanges data.length cs hcs i).map fun r =>
            ⟨min (((r.1 + cs : Nat) : ℚ) / (data.length : ℚ)) 1,
              (f ((data.drop r.1).take cs)).length⟩
        else [],
        (chunkRanges data.length cs hcs i).map
          fun r => ⟨(data.drop r.1).take cs, params⟩⟩ := by
  by_cases h : i < data.length
  · have ih := streamLoop_of_encode_ok codec f params data cs hcs cb henc (i + cs)
    rw [streamLoop, chunkRanges_eq_cons hcs h]
    simp only [dif_pos h, henc, ih, Except.map, List.map_cons]
    cases cb <;> simp
  · rw [streamLoop, chunkRanges_eq_nil hcs (Nat.not_lt.mp h)]
    simp [h]
  termination_by data.length - i
  decreasing_by omega

/-- On a successful call, `compressWithProgress` overwrites the three
compression-side metrics fields and preserves `decompressionTime`
(src/brotli.js lines 30-32). -/
theorem compress_metrics_of_ok (codec : Codec) (m : PerformanceMetrics)
    (data out : Bytes) (opts : CompressionOptions) (cb : Bool) (t : ℚ)
    (hok : (compressWithProgress codec m data opts cb t).result = Except.ok out) :
    (compressWithProgress codec m data opts cb t).metrics
      = ⟨t, m.decompressionTime, data.length, out.length⟩ := by
  unfold compressWithProgress at hok ⊢
  by_cases h : opts.chunkSize ≠ 0 ∧ opts.chunkSize < data.length
  · rw [dif_pos h] at hok ⊢
    rcases heq : (streamCompress codec data ⟨opts.mode, opts.quality, opts.lgwin⟩
        opts.chunkSize (Nat.pos_of_ne_zero h.1) cb).outcome with e | chunks
    · simp only [heq] at hok
      simp at hok
    · simp only [heq] at hok ⊢
      simp at hok
      simp [hok]
  · rw [dif_neg h] at hok ⊢
    rcases heq : codec.encode data ⟨opts.mode, opts.quality, opts.lgwin⟩ with e | o
    · rw [heq] at hok
      have hok2 : Except.error ("Compression failed: " ++ e) = Except.ok out := hok
      exact Except.noConfusion hok2
    · rw [heq] at hok
      have hok2 : Except.ok o = Except.ok out := hok
      have ho : o = out := by injection hok2
      simp only [heq]
      subst ho
      rfl

/-- Claim C8: `getMetrics` returns `compressionRatio = originalSize /
max(compressedSize, 1)` — a zero `compressedSize` is treated as denominator
`1` — and in particular with `originalSize = 1000` and `compressedSize = 0`
the returned ratio is `1000`. -/
theorem c8_compression_ratio (m : PerformanceMetrics) :
    (getMetrics m).compressionRatio
        = (m.originalSize : ℚ) / ((max m.compressedSize 1 : Nat) : ℚ) ∧
    (getMetrics ⟨0, 0, 1000, 0⟩).compressionRatio = 1000 := by
  constructor
  · unfold getMetrics
    rcases Nat.eq_zero_or_pos m.compressedSize with h | h
    · simp [h]
    · have h1 : m.compressedSize ≠ 0 := by omega
      have h2 : max m.compressedSize 1 = m.compressedSize := by omega
      simp [h1, h2]
  · unfold getMetrics
    norm_num

/-- Claim C1, counterexample: calling `compressWithProgress` with the
out-of-range configuration `quality = 12` on input `[1, 2, 3]` does not fail
at all — it returns the codec output — and the primitive encode IS invoked
(once, on the full buffer), refuting that the call fails with an
InvalidConfiguration error before any codec call is made. -/
theorem c1_counterexample :
    (compressWithProgress idCodec initialMetrics [1, 2, 3]
        { quality := 12 } false 0).result = Except.ok [1, 2, 3] ∧
    (compressWithProgress idCodec initialMetrics [1, 2, 3]
        { quality := 12 } false 0).calls
      = [⟨[1, 2, 3], ⟨0, 12, 22⟩⟩] := by
  constructor <;> norm_num [compressWithProgress, idCodec]

/-- Claim C1 (amended): `compressWithProgress` performs no configuration
validation at all. With `chunkSize = 0`, or with any configuration (for
example `quality = 12` or `lgwin = 25`) whose chunkSize is not exceeded by
the input length, it does not fail before calling the codec: it invokes
encode exactly once, on the full buffer, with the unchecked
`{mode, quality, lgwin}`, and its result is exactly encode's result (a
failure only when encode itself fails, wrapped as "Compression failed"). -/
theorem c1_no_config_validation (codec : Codec) (m : PerformanceMetrics)
    (data : Bytes) (q mo lg : Int) (cs : Nat) (cb : Bool) (t : ℚ)
    (h : cs = 0 ∨ data.length ≤ cs) :
    (compressWithProgress codec m data ⟨q, mo, cs, lg⟩ cb t).calls
        = [⟨data, ⟨mo, q, lg⟩⟩] ∧
    (compressWithProgress codec m data ⟨q, mo, cs, lg⟩ cb t).result
        = (codec.encode data ⟨mo, q, lg⟩).mapError
            (fun e => "Compression failed: " ++ e) := by
  have hg : ¬((⟨q, mo, cs, lg⟩ : CompressionOptions).chunkSize ≠ 0 ∧
      (⟨q, mo, cs, lg⟩ : CompressionOptions).chunkSize < data.length) := by
    simp only
    omega
  unfold compressWithProgress
  rw [dif_neg hg]
  rcases heq : codec.encode data ⟨mo, q, lg⟩ with e | o <;>
    simp [heq, Except.mapError]

/-- Claim C1 witness: the amended theorem instantiated at `chunkSize = 0`,
`quality = 12`, `lgwin = 25` with the identity codec on input `[7]`. -/
theorem c1_no_config_validation_witness :
    ((0 : Nat) = 0 ∨ ([7] : Bytes).length ≤ 0) ∧
    ((compressWithProgress idCodec initialMetrics [7] ⟨12, 0, 0, 25⟩
        false 0).calls = [⟨[7], ⟨0, 12, 25⟩⟩] ∧
      (compressWithProgress idCodec initialMetrics [7] ⟨12, 0, 0, 25⟩
          false 0).result
        = (idCodec.encode [7] ⟨0, 12, 25⟩).mapError
            (fun e => "Compression failed: " ++ e)) :=
  ⟨Or.inl rfl,
    c1_no_config_validation idCodec initialMetrics [7] 12 0 25 0 false 0
      (Or.inl rfl)⟩

/-- Claim C9: with `chunkSize = 0` the guard `chunkSize && ...` is falsy, so
`compressWithProgress` takes the one-shot path: no error is raised by the
configuration, encode is invoked exactly once on the full buffer, no
progress events are delivered, and encode's output is returned. -/
theorem c9_chunk_size_zero_one_shot (codec : Codec) (m : PerformanceMetrics)
    (data out : Bytes) (q mo lg : Int) (cb : Bool) (t : ℚ)
    (henc : codec.encode data ⟨mo, q, lg⟩ = Except.ok out) :
    (compressWithProgress codec m data ⟨q, mo, 0, lg⟩ cb t).result
        = Except.ok out ∧
    (compressWithProgress codec m data ⟨q, mo, 0, lg⟩ cb t).calls
        = [⟨data, ⟨mo, q, lg⟩⟩] ∧
    (compressWithProgress codec m data ⟨q, mo, 0, lg⟩ cb t).events = [] := by
  have hg : ¬((⟨q, mo, 0, lg⟩ : CompressionOptions).chunkSize ≠ 0 ∧
      (⟨q, mo, 0, lg⟩ : CompressionOptions).chunkSize < data.length) := by
    simp
  unfold compressWithProgress
  rw [dif_neg hg]
  simp [henc]

/-- Claim C9 witness: the identity codec on input `[1, 2]` with
`chunkSize = 0`. -/
theorem c9_chunk_size_zero_one_shot_witness :
    idCodec.encode [1, 2] ⟨0, 6, 22⟩ = Except.ok [1, 2] ∧
    ((compressWithProgress idCodec initialMetrics [1, 2] ⟨6, 0, 0, 22⟩
        false 0).result = Except.ok [1, 2] ∧
      (compressWithProgress idCodec initialMetrics [1, 2] ⟨6, 0, 0, 22⟩
          false 0).calls = [⟨[1, 2], ⟨0, 6, 22⟩⟩] ∧
      (compressWithProgress idCodec initialMetrics [1, 2] ⟨6, 0, 0, 22⟩
          false 0).events = []) :=
  ⟨rfl, c9_chunk_size_zero_one_shot idCodec initialMetrics [1, 2] [1, 2]
    6 0 22 false 0 rfl⟩

/-- Claim C3: whenever `data.length <= chunkSize`, `compressWithProgress`
takes the one-shot path: encode is invoked exactly once, on the full buffer,
with `{mode, quality, lgwin}`; no progress events are delivered; the result
is exactly encode's output (no chunk framing); and the calls with
`chunkSize = len(d)` and `chunkSize = len(d) + 1` produce identical
outcomes. -/
theorem c3_one_shot_path (codec : Codec) (m : PerformanceMetrics)
    (data : Bytes) (opts : CompressionOptions) (cb : Bool) (t : ℚ)
    (hlen : data.length ≤ opts.chunkSize) :
    (compressWithProgress codec m data opts cb t).calls
        = [⟨data, ⟨opts.mode, opts.quality, opts.lgwin⟩⟩] ∧
    (compressWithProgress codec m data opts cb t).events = [] ∧
    (compressWithProgress codec m data opts cb t).result
        = (codec.encode data ⟨opts.mode, opts.quality, opts.lgwin⟩).mapError
            (fun e => "Compression failed: " ++ e) ∧
    compressWithProgress codec m data { opts with chunkSize := data.length } cb t
      = compressWithProgress codec m data
          { opts with chunkSize := data.length + 1 } cb t := by
  have hg : ¬(opts.chunkSize ≠ 0 ∧ opts.chunkSize < data.length) := by omega
  have hone : ∀ cs2 : Nat, data.length ≤ cs2 →
      compressWithProgress codec m data { opts with chunkSize := cs2 } cb t
        = ⟨(codec.encode data ⟨opts.mode, opts.quality, opts.lgwin⟩).mapError
              (fun e => "Compression failed: " ++ e),
            match codec.encode data ⟨opts.mode, opts.quality, opts.lgwin⟩ with
            | Except.error _ => m
            | Except.ok o =>
              { m with compressionTime := t, originalSize := data.length,
                       compressedSize := o.length },
            [], [⟨data, ⟨opts.mode, opts.quality, opts.lgwin⟩⟩]⟩ := by
    intro cs2 hcs2
    have hg2 : ¬(({ opts with chunkSize := cs2 } :
        CompressionOptions).chunkSize ≠ 0 ∧
        ({ opts with chunkSize := cs2 } :
          CompressionOptions).chunkSize < data.length) := by
      simp only
      omega
    unfold compressWithProgress
    rw [dif_neg hg2]
    rcases heq : codec.encode data ⟨opts.mode, opts.quality, opts.lgwin⟩
      with e | o <;> simp [heq, Except.mapError]
  refine ⟨?_, ?_, ?_, ?_⟩
  · unfold compressWithProgress
    rw [dif_neg hg]
    rcases heq : codec.encode data ⟨opts.mode, opts.quality, opts.lgwin⟩
      with e | o <;> simp [heq]
  · unfold compressWithProgress
    rw [dif_neg hg]
    rcases heq : codec.encode data ⟨opts.mode, opts.quality, opts.lgwin⟩
      with e | o <;> simp [heq]
  · unfold compressWithProgress
    rw [dif_neg hg]
    rcases heq : codec.encode data ⟨opts.mode, opts.quality, opts.lgwin⟩
      with e | o <;> simp [heq, Except.mapError]
  · rw [hone data.length (le_refl _), hone (data.length + 1) (by omega)]

/-- Claim C3 witness: the identity codec on input `[1, 2, 3]` with
`chunkSize = 5`. -/
theorem c3_one_shot_path_witness :
    ([1, 2, 3] : Bytes).length ≤ (⟨6, 0, 5, 22⟩ : CompressionOptions).chunkSize ∧
    ((compressWithProgress idCodec initialMetrics [1, 2, 3] ⟨6, 0, 5, 22⟩
        false 0).calls = [⟨[1, 2, 3], ⟨0, 6, 22⟩⟩] ∧
      (compressWithProgress idCodec initialMetrics [1, 2, 3] ⟨6, 0, 5, 22⟩
          false 0).events = [] ∧
      (compressWithProgress idCodec initialMetrics [1, 2, 3] ⟨6, 0, 5, 22⟩
          false 0).result
        = (idCodec.encode [1, 2, 3] ⟨0, 6, 22⟩).mapError
            (fun e => "Compression failed: " ++ e) ∧
      compressWithProgress idCodec initialMetrics [1, 2, 3]
          { (⟨6, 0, 5, 22⟩ : CompressionOptions) with
              chunkSize := ([1, 2, 3] : Bytes).length } false 0
        = compressWithProgress idCodec initialMetrics [1, 2, 3]
            { (⟨6, 0, 5, 22⟩ : CompressionOptions) with
                chunkSize := ([1, 2, 3] : Bytes).length + 1 } false 0) :=
  ⟨by norm_num,
    c3_one_shot_path idCodec initialMetrics [1, 2, 3] ⟨6, 0, 5, 22⟩ false 0
      (by norm_num)⟩

/-- Claim C2: for every byte sequence `d` and valid configuration `c` with
`len(d) <= c.chunkSize` (the one-shot path), decompressing a successful
`compressWithProgress` output restores `d` exactly, assuming the codec's
decode inverts its encode. -/
theorem c2_one_shot_round_trip (codec : Codec) (m m2 : PerformanceMetrics)
    (data out : Bytes) (opts : CompressionOptions) (cb : Bool) (t t2 : ℚ)
    (hq0 : 0 ≤ opts.quality) (hq1 : opts.quality ≤ 11)
    (hmo : opts.mode = 0 ∨ opts.mode = 1 ∨ opts.mode = 2)
    (hw0 : 10 ≤ opts.lgwin) (hw1 : opts.lgwin ≤ 24)
    (hcs : 0 < opts.chunkSize)
    (hlen : data.length ≤ opts.chunkSize)
    (hinv : ∀ b p o, codec.encode b p = Except.ok o →
      codec.decode o = Except.ok b)
    (hok : (compressWithProgress codec m data opts cb t).result
      = Except.ok out) :
    (decompress codec m2 out t2).1 = Except.ok data := by
  have hg : ¬(opts.chunkSize ≠ 0 ∧ opts.chunkSize < data.length) := by omega
  unfold compressWithProgress at hok
  rw [dif_neg hg] at hok
  rcases heq : codec.encode data ⟨opts.mode, opts.quality, opts.lgwin⟩
    with e | o
  · rw [heq] at hok
    have hok2 : Except.error ("Compression failed: " ++ e)
        = Except.ok out := hok
    exact Except.noConfusion hok2
  · rw [heq] at hok
    have hok2 : Except.ok o = Except.ok out := hok
    have ho : o = out := by injection hok2
    subst ho
    unfold decompress
    rw [hinv data ⟨opts.mode, opts.quality, opts.lgwin⟩ o heq]

/-- Claim C2 witness: the identity codec (decode inverts encode) on input
`[9, 9]` with chunkSize 4. -/
theorem c2_one_shot_round_trip_witness :
    (0 : Int) ≤ 6 ∧ (6 : Int) ≤ 11 ∧
    ((0 : Int) = 0 ∨ (0 : Int) = 1 ∨ (0 : Int) = 2) ∧
    (10 : Int) ≤ 22 ∧ (22 : Int) ≤ 24 ∧ (0 : Nat) < 4 ∧
    ([9, 9] : Bytes).length ≤ 4 ∧
    (∀ b p o, idCodec.encode b p = Except.ok o →
      idCodec.decode o = Except.ok b) ∧
    (compressWithProgress idCodec initialMetrics [9, 9] ⟨6, 0, 4, 22⟩
        false 0).result = Except.ok [9, 9] ∧
    (decompress idCodec initialMetrics [9, 9] 0).1 = Except.ok [9, 9] := by
  refine ⟨by norm_num, by norm_num, by norm_num, by norm_num, by norm_num,
    by norm_num, by norm_num, ?_, ?_, ?_⟩
  · intro b p o h
    have ho : b = o := by
      have h2 : Except.ok b = Except.ok o := h
      injection h2
    subst ho
    rfl
  · norm_num [compressWithProgress, idCodec]
  · exact c2_one_shot_round_trip idCodec initialMetrics initialMetrics
      [9, 9] [9, 9] ⟨6, 0, 4, 22⟩ false 0 0 (by norm_num) (by norm_num)
      (by norm_num) (by norm_num) (by norm_num) (by norm_num) (by norm_num)
      (fun b p o h => by
        have h2 : Except.ok b = Except.ok o := h
        have ho : b = o := by injection h2
        subst ho
        rfl)
      (by norm_num [compressWithProgress, idCodec])

/-- Claim C6: if a per-chunk encode call fails during a chunked
`compressWithProgress`, the whole operation fails with a
"Compression failed" error carrying the cause, no partial artifact is
returned, and the metrics keep their pre-call values. -/
theorem c6_chunk_failure_no_partial (codec : Codec) (m : PerformanceMetrics)
    (data : Bytes) (opts : CompressionOptions) (cb : Bool) (t : ℚ)
    (e : String)
    (hcs : opts.chunkSize ≠ 0) (hlen : opts.chunkSize < data.length)
    (he : (streamCompress codec data ⟨opts.mode, opts.quality, opts.lgwin⟩
        opts.chunkSize (Nat.pos_of_ne_zero hcs) cb).outcome
      = Except.error e) :
    (compressWithProgress codec m data opts cb t).result
        = Except.error ("Compression failed: " ++ e) ∧
    (compressWithProgress codec m data opts cb t).metrics = m := by
  have hg : opts.chunkSize ≠ 0 ∧ opts.chunkSize < data.length := ⟨hcs, hlen⟩
  have he2 : (streamCompress codec data ⟨opts.mode, opts.quality, opts.lgwin⟩
      opts.chunkSize (Nat.pos_of_ne_zero hg.1) cb).outcome
      = Except.error e := he
  constructor <;>
  · unfold compressWithProgress
    rw [dif_pos hg]
    simp only [he2]

/-- Claim C6 witness: the always-failing codec on a three-byte input with
chunkSize 1 (chunked path). -/
theorem c6_chunk_failure_no_partial_witness :
    (⟨6, 0, 1, 22⟩ : CompressionOptions).chunkSize ≠ 0 ∧
    (⟨6, 0, 1, 22⟩ : CompressionOptions).chunkSize
      < ([1, 2, 3] : Bytes).length ∧
    (streamCompress failCodec [1, 2, 3] ⟨0, 6, 22⟩ 1
        (Nat.pos_of_ne_zero (by norm_num)) false).outcome
      = Except.error "boom" ∧
    ((compressWithProgress failCodec initialMetrics [1, 2, 3] ⟨6, 0, 1, 22⟩
        false 0).result = Except.error ("Compression failed: " ++ "boom") ∧
      (compressWithProgress failCodec initialMetrics [1, 2, 3] ⟨6, 0, 1, 22⟩
          false 0).metrics = initialMetrics) := by
  have he : (streamCompress failCodec [1, 2, 3] ⟨0, 6, 22⟩ 1
      (Nat.pos_of_ne_zero (by norm_num)) false).outcome
      = Except.error "boom" := by
    rw [streamCompress, streamLoop]
    norm_num [failCodec, Except.map]
  exact ⟨by norm_num, by norm_num, he,
    c6_chunk_failure_no_partial failCodec initialMetrics [1, 2, 3]
      ⟨6, 0, 1, 22⟩ false 0 "boom" (by norm_num) (by norm_num) he⟩

/-- Claim C7: each successful compress overwrites `compressionTime`,
`originalSize` and `compressedSize` rather than accumulating them — after
two successful compress calls the metrics carry exactly the second call's
time and sizes — and each successful decompress overwrites only
`decompressionTime`, leaving the three compression-side fields unchanged. -/
theorem c7_metrics_overwrite (codec : Codec) (m : PerformanceMetrics)
    (d1 d2 art a1 a2 b : Bytes) (o1 o2 : CompressionOptions)
    (cb1 cb2 : Bool) (t1 t2 t3 : ℚ)
    (h1 : (compressWithProgress codec m d1 o1 cb1 t1).result = Except.ok a1)
    (h2 : (compressWithProgress codec
        (compressWithProgress codec m d1 o1 cb1 t1).metrics d2 o2 cb2
        t2).result = Except.ok a2)
    (hd : codec.decode art = Except.ok b) :
    (compressWithProgress codec
        (compressWithProgress codec m d1 o1 cb1 t1).metrics d2 o2 cb2
        t2).metrics
      = ⟨t2, m.decompressionTime, d2.length, a2.length⟩ ∧
    (decompress codec m art t3).2
      = ⟨m.compressionTime, t3, m.originalSize, m.compressedSize⟩ := by
  constructor
  · rw [compress_metrics_of_ok codec _ d2 a2 o2 cb2 t2 h2,
      compress_metrics_of_ok codec m d1 a1 o1 cb1 t1 h1]
  · unfold decompress
    rw [hd]

/-- Claim C7 witness: the identity codec, first compressing `[1]` then
`[2, 3]`, then decompressing `[4]`. -/
theorem c7_metrics_overwrite_witness :
    (compressWithProgress idCodec initialMetrics [1] ⟨6, 0, 5, 22⟩
        false 1).result = Except.ok [1] ∧
    (compressWithProgress idCodec
        (compressWithProgress idCodec initialMetrics [1] ⟨6, 0, 5, 22⟩
          false 1).metrics [2, 3] ⟨6, 0, 5, 22⟩ false 2).result
      = Except.ok [2, 3] ∧
    idCodec.decode [4] = Except.ok [4] ∧
    ((compressWithProgress idCodec
        (compressWithProgress idCodec initialMetrics [1] ⟨6, 0, 5, 22⟩
          false 1).metrics [2, 3] ⟨6, 0, 5, 22⟩ false 2).metrics
      = ⟨2, initialMetrics.decompressionTime, ([2, 3] : Bytes).length,
          ([2, 3] : Bytes).length⟩ ∧
    (decompress idCodec initialMetrics [4] 3).2
      = ⟨initialMetrics.compressionTime, 3, initialMetrics.originalSize,
          initialMetrics.compressedSize⟩) := by
  have h1 : (compressWithProgress idCodec initialMetrics [1] ⟨6, 0, 5, 22⟩
      false 1).result = Except.ok [1] := by
    norm_num [compressWithProgress, idCodec]
  have h2 : (compressWithProgress idCodec
      (compressWithProgress idCodec initialMetrics [1] ⟨6, 0, 5, 22⟩
        false 1).metrics [2, 3] ⟨6, 0, 5, 22⟩ false 2).result
      = Except.ok [2, 3] := by
    norm_num [compressWithProgress, idCodec]
  exact ⟨h1, h2, rfl,
    c7_metrics_overwrite idCodec initialMetrics [1] [2, 3] [4] [1] [2, 3]
      [4] ⟨6, 0, 5, 22⟩ ⟨6, 0, 5, 22⟩ false false 1 2 3 h1 h2 rfl⟩

theorem min_div_min_cast (a len : Nat) (hlen : 0 < len) :
    min (((min a len : Nat) : ℚ) / (len : ℚ)) 1
      = min ((a : ℚ) / (len : ℚ)) 1 := by
  rcases le_or_lt a len with h | h
  · rw [Nat.min_eq_left h]
  · rw [Nat.min_eq_right (le_of_lt h)]
    have hq : (0 : ℚ) < (len : ℚ) := by exact_mod_cast hlen
    rw [div_self (ne_of_gt hq), min_self]
    symm
    rw [min_eq_right]
    exact (one_le_div hq).mpr (by exact_mod_cast le_of_lt h)

/-- In the chunked path, `compressWithProgress` passes through the progress
events and the encode-call trace of `streamCompress` unchanged, whether or
not the loop succeeds. -/
theorem compress_chunked_events_calls (codec : Codec)
    (m : PerformanceMetrics) (data : Bytes) (opts : CompressionOptions)
    (cb : Bool) (t : ℚ)
    (hg : opts.chunkSize ≠ 0 ∧ opts.chunkSize < data.length) :
    (compressWithProgress codec m data opts cb t).events
      = (streamCompress codec data ⟨opts.mode, opts.quality, opts.lgwin⟩
          opts.chunkSize (Nat.pos_of_ne_zero hg.1) cb).events ∧
    (compressWithProgress codec m data opts cb t).calls
      = (streamCompress codec data ⟨opts.mode, opts.quality, opts.lgwin⟩
          opts.chunkSize (Nat.pos_of_ne_zero hg.1) cb).calls := by
  unfold compressWithProgress
  rw [dif_pos hg]
  rcases ho : (streamCompress codec data ⟨opts.mode, opts.quality, opts.lgwin⟩
      opts.chunkSize (Nat.pos_of_ne_zero hg.1) cb).outcome with e | o <;>
    simp only [ho] <;> exact ⟨trivial, trivial⟩

/-- Claim C4: for every positive input length and chunk size, the chunked
path slices the input into an ordered sequence of half-open ranges that
cover `[0, len)` with no gaps or overlaps (their in-order concatenation as
intervals is exactly `[0, len)`), every range except possibly the last has
length exactly chunkSize, the last range ends at `len` with length in
`(0, chunkSize]`, and for inputLength 10 and chunkSize 3 the ranges are
exactly `[0,3), [3,6), [6,9), [9,10)`. -/
theorem c4_chunk_planner (len cs : Nat) (hlen : 0 < len) (hcs : 0 < cs) :
    ((chunkRanges len cs hcs 0).map
        fun r => List.range' r.1 (r.2 - r.1)).flatten = List.range len ∧
    (∀ r ∈ (chunkRanges len cs hcs 0).dropLast, r.2 - r.1 = cs) ∧
    (∃ j, (chunkRanges len cs hcs 0).getLast? = some (j, len) ∧
      0 < len - j ∧ len - j ≤ cs) ∧
    chunkRanges 10 3 (by norm_num) 0 = [(0, 3), (3, 6), (6, 9), (9, 10)] := by
  refine ⟨?_, chunkRanges_dropLast len cs hcs 0, ?_, ?_⟩
  · rw [chunkRanges_flatten len cs hcs 0, List.range_eq_range', Nat.sub_zero]
  · obtain ⟨j, hj, hj1, hj2⟩ := chunkRanges_getLast? len cs hcs 0 hlen
    exact ⟨j, hj, by omega, by omega⟩
  · simp [chunkRanges]

/-- Claim C4 witness: the planner instantiated at inputLength 10 and
chunkSize 3. -/
theorem c4_chunk_planner_witness :
    (0 : Nat) < 10 ∧ (0 : Nat) < 3 ∧
    (((chunkRanges 10 3 (by norm_num) 0).map
        fun r => List.range' r.1 (r.2 - r.1)).flatten = List.range 10 ∧
      (∀ r ∈ (chunkRanges 10 3 (by norm_num) 0).dropLast, r.2 - r.1 = 3) ∧
      (∃ j, (chunkRanges 10 3 (by norm_num) 0).getLast? = some (j, 10) ∧
        0 < 10 - j ∧ 10 - j ≤ 3) ∧
      chunkRanges 10 3 (by norm_num) 0 = [(0, 3), (3, 6), (6, 9), (9, 10)]) :=
  ⟨by norm_num, by norm_num, c4_chunk_planner 10 3 (by norm_num) (by norm_num)⟩

/-- Claim C10: for every input and every chunkSize >= 1, the chunked loop
terminates — the embedding's loop recursion is well-founded precisely
because the index advances by chunkSize ≥ 1 each iteration — and, when
every encode succeeds, performs exactly
`ceil(len / chunkSize) = (len + chunkSize - 1) / chunkSize` encode calls;
consequently a chunked `compressWithProgress` performs exactly that many
encode calls. -/
theorem c10_chunk_count (codec : Codec) (f : Bytes → Bytes)
    (m : PerformanceMetrics) (data : Bytes) (opts : CompressionOptions)
    (cb : Bool) (t : ℚ) (hcs : 1 ≤ opts.chunkSize)
    (henc : ∀ b, codec.encode b ⟨opts.mode, opts.quality, opts.lgwin⟩
      = Except.ok (f b)) :
    (streamCompress codec data ⟨opts.mode, opts.quality, opts.lgwin⟩
        opts.chunkSize hcs cb).calls.length
      = (data.length + opts.chunkSize - 1) / opts.chunkSize ∧
    (opts.chunkSize < data.length →
      (compressWithProgress codec m data opts cb t).calls.length
        = (data.length + opts.chunkSize - 1) / opts.chunkSize) := by
  have hchar := streamLoop_of_encode_ok codec f
    ⟨opts.mode, opts.quality, opts.lgwin⟩ data opts.chunkSize hcs cb henc 0
  have hlen : (streamCompress codec data
      ⟨opts.mode, opts.quality, opts.lgwin⟩ opts.chunkSize hcs cb).calls.length
      = (data.length + opts.chunkSize - 1) / opts.chunkSize := by
    rw [streamCompress]
    simp only [hchar, List.length_map]
    rw [chunkRanges_length, Nat.sub_zero]
  refine ⟨hlen, fun h2 => ?_⟩
  have hg : opts.chunkSize ≠ 0 ∧ opts.chunkSize < data.length :=
    ⟨by omega, h2⟩
  have hc := (compress_chunked_events_calls codec m data opts cb t hg).2
  rw [hc]
  have hlen2 : (streamCompress codec data
      ⟨opts.mode, opts.quality, opts.lgwin⟩ opts.chunkSize
      (Nat.pos_of_ne_zero hg.1) cb).calls.length
      = (data.length + opts.chunkSize - 1) / opts.chunkSize := hlen
  exact hlen2

/-- Claim C10 witness: the identity codec on a 3-byte input with
chunkSize 2: two encode calls, both via the loop and via
compressWithProgress. -/
theorem c10_chunk_count_witness :
    (1 : Nat) ≤ (⟨6, 0, 2, 22⟩ : CompressionOptions).chunkSize ∧
    (∀ b, idCodec.encode b ⟨0, 6, 22⟩ = Except.ok b) ∧
    ((streamCompress idCodec [1, 2, 3] ⟨0, 6, 22⟩ 2 (by norm_num)
        false).calls.length = (([1, 2, 3] : Bytes).length + 2 - 1) / 2 ∧
      (2 < ([1, 2, 3] : Bytes).length →
        (compressWithProgress idCodec initialMetrics [1, 2, 3]
            ⟨6, 0, 2, 22⟩ false 0).calls.length
          = (([1, 2, 3] : Bytes).length + 2 - 1) / 2)) :=
  ⟨by norm_num, fun b => rfl,
    c10_chunk_count idCodec (fun b => b) initialMetrics [1, 2, 3]
      ⟨6, 0, 2, 22⟩ false 0 (by norm_num) (fun b => rfl)⟩

theorem chunkRanges_eq_map_range (len cs : Nat) (hcs : 0 < cs) :
    chunkRanges len cs hcs 0
      = (List.range ((len + cs - 1) / cs)).map
          (fun j => (j * cs, min (j * cs + cs) len)) := by
  apply List.ext_get
  · simp [chunkRanges_length, Nat.sub_zero]
  · intro n h1 h2
    rw [chunkRanges_get len cs hcs 0 n h1, List.get_map]
    simp

theorem chunkRanges_chain_starts (len cs : Nat) (hcs : 0 < cs) (i : Nat) :
    List.Chain' (fun a b : Nat × Nat => b.1 = a.1 + cs)
      (chunkRanges len cs hcs i) := by
  by_cases h : i < len
  · rw [chunkRanges_eq_cons hcs h]
    by_cases h2 : i + cs < len
    · have ih := chunkRanges_chain_starts len cs hcs (i + cs)
      rw [chunkRanges_eq_cons hcs h2] at ih ⊢
      rw [List.chain'_cons]
      exact ⟨rfl, ih⟩
    · rw [chunkRanges_eq_nil hcs (Nat.not_lt.mp h2)]
      simp
  · rw [chunkRanges_eq_nil hcs (Nat.not_lt.mp h)]
    simp
  termination_by len - i
  decreasing_by omega

/-- Claim C5: during a chunked `compressWithProgress` with a supplied
callback whose per-chunk encodes all succeed, the callback fires exactly
once per chunk, the j-th invocation reporting
`fraction = min(processedBytes / inputLength, 1)` where
`processedBytes = min((j+1) * chunkSize, inputLength)`, and
`lastChunkCompressedSize` the length of the j-th chunk's compressed output;
moreover the reported fraction sequence is non-decreasing and the final
reported fraction equals 1. -/
theorem c5_progress_events (codec : Codec) (f : Bytes → Bytes)
    (m : PerformanceMetrics) (data : Bytes) (opts : CompressionOptions)
    (t : ℚ) (hcs : 0 < opts.chunkSize)
    (hchunked : opts.chunkSize < data.length)
    (henc : ∀ b, codec.encode b ⟨opts.mode, opts.quality, opts.lgwin⟩
      = Except.ok (f b)) :
    (compressWithProgress codec m data opts true t).events
        = (List.range
              ((data.length + opts.chunkSize - 1) / opts.chunkSize)).map
            (fun j =>
              ⟨min (((min ((j + 1) * opts.chunkSize) data.length : Nat) : ℚ)
                  / (data.length : ℚ)) 1,
                (f ((data.drop (j * opts.chunkSize)).take
                  opts.chunkSize)).length⟩) ∧
    (compressWithProgress codec m data opts true t).calls
        = (List.range
              ((data.length + opts.chunkSize - 1) / opts.chunkSize)).map
            (fun j =>
              ⟨(data.drop (j * opts.chunkSize)).take opts.chunkSize,
                ⟨opts.mode, opts.quality, opts.lgwin⟩⟩) ∧
    List.Chain' (· ≤ ·)
      ((compressWithProgress codec m data opts true t).events.map
        ProgressEvent.fraction) ∧
    ((compressWithProgress codec m data opts true t).events.map
        ProgressEvent.fraction).getLast? = some 1 := by
  have hg : opts.chunkSize ≠ 0 ∧ opts.chunkSize < data.length :=
    ⟨by omega, hchunked⟩
  have hlen0 : 0 < data.length := by omega
  have hq0 : (0 : ℚ) < (data.length : ℚ) := by exact_mod_cast hlen0
  obtain ⟨hev, hca⟩ := compress_chunked_events_calls codec m data opts true t hg
  have hchar := streamLoop_of_encode_ok codec f
    ⟨opts.mode, opts.quality, opts.lgwin⟩ data opts.chunkSize
    (Nat.pos_of_ne_zero hg.1) true henc 0
  have hev2 : (compressWithProgress codec m data opts true t).events
      = (chunkRanges data.length opts.chunkSize
          (Nat.pos_of_ne_zero hg.1) 0).map
          (fun r =>
            ⟨min (((r.1 + opts.chunkSize : Nat) : ℚ) / (data.length : ℚ)) 1,
              (f ((data.drop r.1).take opts.chunkSize)).length⟩) := by
    rw [hev, streamCompress]
    simp only [hchar]
    simp
  have hca2 : (compressWithProgress codec m data opts true t).calls
      = (chunkRanges data.length opts.chunkSize
          (Nat.pos_of_ne_zero hg.1) 0).map
          (fun r => ⟨(data.drop r.1).take opts.chunkSize,
            ⟨opts.mode, opts.quality, opts.lgwin⟩⟩) := by
    rw [hca, streamCompress]
    simp only [hchar]
  refine ⟨?_, ?_, ?_, ?_⟩
  · rw [hev2, chunkRanges_eq_map_range data.length opts.chunkSize
      (Nat.pos_of_ne_zero hg.1), List.map_map]
    apply List.map_congr_left
    intro j hj
    simp only [Function.comp]
    congr 1
    rw [min_div_min_cast _ _ hlen0]
    have e1 : (j + 1) * opts.chunkSize = j * opts.chunkSize + opts.chunkSize :=
      by ring
    rw [e1]
  · rw [hca2, chunkRanges_eq_map_range data.length opts.chunkSize
      (Nat.pos_of_ne_zero hg.1), List.map_map]
    apply List.map_congr_left
    intro j hj
    simp [Function.comp]
  · rw [hev2, List.map_map]
    apply List.chain'_map_of_chain' _ ?_
      (chunkRanges_chain_starts data.length opts.chunkSize
        (Nat.pos_of_ne_zero hg.1) 0)
    intro a b hab
    simp only [Function.comp]
    apply min_le_min _ (le_refl (1 : ℚ))
    apply (div_le_div_right hq0).mpr
    have hN : a.1 + opts.chunkSize ≤ b.1 + opts.chunkSize := by omega
    exact_mod_cast hN
  · rw [hev2, List.map_map, List.getLast?_map]
    obtain ⟨j, hj, hj1, hj2⟩ := chunkRanges_getLast? data.length
      opts.chunkSize (Nat.pos_of_ne_zero hg.1) 0 hlen0
    rw [hj]
    simp only [Option.map_some']
    congr 1
    simp only [Function.comp]
    rw [min_eq_right]
    exact (one_le_div hq0).mpr (by exact_mod_cast hj2)

/-- Claim C5 witness: the identity codec on a four-byte input with
chunkSize 3 and a callback: two chunks, fractions 3/4 then 1. -/
theorem c5_progress_events_witness :
    (0 : Nat) < (⟨6, 0, 3, 22⟩ : CompressionOptions).chunkSize ∧
    (⟨6, 0, 3, 22⟩ : CompressionOptions).chunkSize
      < ([1, 2, 3, 4] : Bytes).length ∧
    (∀ b, idCodec.encode b ⟨0, 6, 22⟩ = Except.ok b) ∧
    ((compressWithProgress idCodec initialMetrics [1, 2, 3, 4] ⟨6, 0, 3, 22⟩
        true 0).events
        = (List.range ((([1, 2, 3, 4] : Bytes).length + 3 - 1) / 3)).map
            (fun j =>
              ⟨min (((min ((j + 1) * 3) ([1, 2, 3, 4] : Bytes).length : Nat)
                  : ℚ) / (([1, 2, 3, 4] : Bytes).length : ℚ)) 1,
                (([1, 2, 3, 4] : Bytes).drop (j * 3)).take 3 |>.length⟩) ∧
      (compressWithProgress idCodec initialMetrics [1, 2, 3, 4] ⟨6, 0, 3, 22⟩
          true 0).calls
        = (List.range ((([1, 2, 3, 4] : Bytes).length + 3 - 1) / 3)).map
            (fun j =>
              ⟨(([1, 2, 3, 4] : Bytes).drop (j * 3)).take 3, ⟨0, 6, 22⟩⟩) ∧
      List.Chain' (· ≤ ·)
        ((compressWithProgress idCodec initialMetrics [1, 2, 3, 4]
            ⟨6, 0, 3, 22⟩ true 0).events.map ProgressEvent.fraction) ∧
      ((compressWithProgress idCodec initialMetrics [1, 2, 3, 4]
          ⟨6, 0, 3, 22⟩ true 0).events.map
            ProgressEvent.fraction).getLast? = some 1) :=
  ⟨by norm_num, by norm_num, fun b => rfl,
    c5_progress_events idCodec (fun b => b) initialMetrics [1, 2, 3, 4]
      ⟨6, 0, 3, 22⟩ 0 (by norm_num) (by norm_num) (fun b => rfl)⟩

end BrotliJS
